import Mathlib

/-!
Shallow embedding of the interaction core of `src/components/Terminal.tsx`
(the CI-CD-Healing-Agent repository).

The component is a React function component whose observable state is held in
`useState` hooks: `history`, `step`, `currentText`, `repoLink`, `teamName`,
`leaderName`, `isLoading`, `isTyping`.  Its dynamics are driven by

  * a `useEffect` keyed on `step` (lines 77-113): when `step` is even and
    below 6 it sets `isTyping` to true, clears `currentText` and starts a
    `setInterval` that appends one character of `PROMPTS[step / 2]` per tick;
    when the last character has been emitted the callback clears the interval,
    sets `isTyping` to false and schedules a 300 ms `setTimeout` that commits
    the prompt as a system line, clears `currentText` and increments `step`.
    The effect's cleanup (line 111) clears only the interval.
  * `handleUserInputChange` (lines 117-121) and `handleKeyDown`
    (lines 123-141), reachable only through the hidden `<input>` element which
    is rendered exactly when `step % 2 !== 0 && !isLoading` (line 247).
  * `handleRunAgent` (lines 149-159) and the derived `isButtonEnabled`
    (line 161).

We model strings as `List Char` (`Str`), and the single outstanding scheduled
task of the auto-type effect as a `Pending` value: `Pending.interval p i` is
the live `setInterval` for prompt `p` having already emitted `i` characters,
`Pending.settle p` is the pending 300 ms `setTimeout`.  React re-runs the
effect after every `step` change: transitions that change `step` therefore end
with `runEffect ∘ cleanup`, where `cleanup` is the effect teardown
(`clearInterval` only, exactly as in the source) and `runEffect` is the effect
body.  Line ids (`Date.now().toString()`, presentation-only wall-clock data)
are not modeled; no claim concerns them.
-/

namespace CICDTerminal

/-- Strings of the model: JavaScript strings as lists of characters. -/
abbrev Str := List Char

/-- Line kinds, `type LineType = 'system' | 'user'` in the source. -/
inductive LineType where
  | system
  | user
deriving DecidableEq, Repr

/-- A committed terminal line (`interface TerminalLine`); the wall-clock `id`
field is presentation data and is not modeled. -/
structure TerminalLine where
  kind : LineType
  text : Str
deriving DecidableEq, Repr

/-- The fixed prompt list, `const PROMPTS` of the source. -/
def PROMPTS : List Str :=
  [ "Enter Github Repository Link".toList
  , "Enter Team Name".toList
  , "Enter Team Leader Name".toList ]

/-- Lookup of `PROMPTS[i]` (always used in range by the component). -/
def prompt (i : Nat) : Str := PROMPTS.getD i []

/-- The single outstanding scheduled task of the auto-type effect. -/
inductive Pending where
  | none
  | interval (p i : Nat)
  | settle (p : Nat)
deriving DecidableEq, Repr

/-- The component's state: one field per `useState` hook, plus the pending
scheduled task of the auto-type effect. -/
structure TermState where
  history : List TerminalLine
  step : Nat
  currentText : Str
  repoLink : Str
  teamName : Str
  leaderName : Str
  isLoading : Bool
  isTyping : Bool
  pending : Pending
deriving DecidableEq, Repr

/-- JavaScript whitespace test for the characters relevant to `trim()`. -/
def isSpaceChar (c : Char) : Bool :=
  c = ' ' || c = '\t' || c = '\n' || c = '\r'

/-- JavaScript `String.prototype.trim`: strip leading and trailing
whitespace, keep interior whitespace verbatim. -/
def trimText (l : Str) : Str :=
  ((l.dropWhile isSpaceChar).reverse.dropWhile isSpaceChar).reverse

/-- JavaScript `String.prototype.charAt` as a (length ≤ 1) string. -/
def charAt (l : Str) (i : Nat) : Str :=
  match l[i]? with
  | some c => [c]
  | Option.none => []

/-- Body of the auto-type `useEffect` (lines 77-86): on a system step below 6
it raises `isTyping`, resets `currentText` and installs the interval for
prompt `step / 2` at character index 0; otherwise it does nothing. -/
def runEffect (s : TermState) : TermState :=
  if s.step % 2 = 0 ∧ s.step < 6 then
    { s with isTyping := true
           , currentText := []
           , pending := Pending.interval (s.step / 2) 0 }
  else s

/-- The effect's cleanup (line 111): `clearInterval(intervalId)`.  It removes
a live interval but leaves a pending settle `setTimeout` in place, exactly as
the source does. -/
def cleanup (s : TermState) : TermState :=
  match s.pending with
  | Pending.interval _ _ => { s with pending := Pending.none }
  | _ => s

/-- External events driving the component. `tick` fires the interval callback
once, `settleFire` fires the 300 ms settle timeout, `input`/`confirm` are the
text-change and Enter-key events of the hidden input, `runAgent` is a click on
the Run Agent button, `loadingDone` is the 3000 ms demo timeout inside
`handleRunAgent` (its callback only logs; no state change). -/
inductive Event where
  | tick
  | settleFire
  | input (t : Str)
  | confirm
  | runAgent
  | loadingDone
deriving DecidableEq, Repr

/-- One event of the component, translated handler by handler from the
source.  Transitions that change `step` finish with `runEffect ∘ cleanup`,
modeling React re-running the `[step]`-keyed effect. -/
def applyEvent (s : TermState) (e : Event) : TermState :=
  match e with
  | Event.tick =>
    match s.pending with
    | Pending.interval p i =>
      if i < (prompt p).length then
        { s with currentText := s.currentText ++ charAt (prompt p) i
               , pending := Pending.interval p (i + 1) }
      else
        { s with isTyping := false, pending := Pending.settle p }
    | _ => s
  | Event.settleFire =>
    match s.pending with
    | Pending.settle p =>
      runEffect (cleanup
        { s with history := s.history ++ [⟨LineType.system, prompt p⟩]
               , currentText := []
               , step := s.step + 1
               , pending := Pending.none })
    | _ => s
  | Event.input t =>
    if s.step % 2 ≠ 0 ∧ s.isLoading = false then
      { s with currentText := t }
    else s
  | Event.confirm =>
    if s.step % 2 ≠ 0 ∧ s.isLoading = false ∧ s.isTyping = false ∧
        0 < (trimText s.currentText).length then
      let val := trimText s.currentText
      runEffect (cleanup
        { s with repoLink := if s.step = 1 then val else s.repoLink
               , teamName := if s.step = 3 then val else s.teamName
               , leaderName := if s.step = 5 then val else s.leaderName
               , history := s.history ++ [⟨LineType.user, val⟩]
               , currentText := []
               , step := s.step + 1 })
    else s
  | Event.runAgent =>
    if s.step = 6 ∧ s.repoLink ≠ [] ∧ s.teamName ≠ [] ∧ s.leaderName ≠ [] then
      { s with isLoading := true }
    else s
  | Event.loadingDone => s

/-- The hook initial values (lines 26-48), before any effect has run. -/
def initState : TermState :=
  { history := []
  , step := 0
  , currentText := []
  , repoLink := []
  , teamName := []
  , leaderName := []
  , isLoading := false
  , isTyping := false
  , pending := Pending.none }

/-- The mounted component: the auto-type effect has run once for step 0. -/
def init : TermState := runEffect initState

/-- Derived gate `isButtonEnabled` (line 161). -/
def isButtonEnabled (s : TermState) : Bool :=
  decide (s.step = 6) && !s.isLoading && decide (s.repoLink ≠ []) &&
    decide (s.teamName ≠ []) && decide (s.leaderName ≠ [])

/-- Modelled from the spec, for the refinement claim about the Action Gate:
"`ENABLED` iff `step == DONE` AND `ActionState != RUNNING` AND all three
Answers slots are non-empty" (DONE = 6; `ActionState = RUNNING` holds exactly
when the component is in its loading state). -/
def gateSpecEnabled (s : TermState) : Prop :=
  s.step = 6 ∧ s.isLoading = false ∧
    s.repoLink ≠ [] ∧ s.teamName ≠ [] ∧ s.leaderName ≠ []

/-- Reachable states of the mounted component. -/
inductive Reachable : TermState → Prop where
  | init : Reachable init
  | step (s : TermState) (e : Event) : Reachable s → Reachable (applyEvent s e)

/-- Run a list of events from the mounted component. -/
def run (l : List Event) : TermState := l.foldl applyEvent init

theorem reachable_foldl (l : List Event) :
    ∀ s, Reachable s → Reachable (l.foldl applyEvent s) := by
  induction l with
  | nil => intro s hs; exact hs
  | cons e l ih =>
    intro s hs
    exact ih (applyEvent s e) (Reachable.step s e hs)

theorem reachable_run (l : List Event) : Reachable (run l) :=
  reachable_foldl l init Reachable.init

/-- Invariant tied to the outstanding scheduled task: a live interval or a
pending settle timeout exists exactly on system steps below 6, the interval
has emitted precisely the first `i` characters of its prompt, and the typing
flag is up exactly while the interval is live. -/
def PendingInv (s : TermState) : Prop :=
  (s.pending = Pending.none →
      (s.step % 2 = 1 ∨ s.step = 6) ∧ s.isTyping = false) ∧
  (∀ p i, s.pending = Pending.interval p i →
      s.step % 2 = 0 ∧ s.step < 6 ∧ p = s.step / 2 ∧ i ≤ (prompt p).length ∧
      s.currentText = (prompt p).take i ∧ s.isTyping = true) ∧
  (∀ p, s.pending = Pending.settle p →
      s.step % 2 = 0 ∧ s.step < 6 ∧ p = s.step / 2 ∧
      s.currentText = prompt p ∧ s.isTyping = false)

/-- The main reachability invariant of the component. -/
def Inv (s : TermState) : Prop :=
  s.step ≤ 6 ∧
  s.history.length = s.step ∧
  (s.repoLink ≠ [] ↔ 2 ≤ s.step) ∧
  (s.teamName ≠ [] ↔ 4 ≤ s.step) ∧
  (s.leaderName ≠ [] ↔ 6 ≤ s.step) ∧
  (s.isLoading = true → s.step = 6) ∧
  PendingInv s

theorem charAt_eq_toList (l : Str) (i : Nat) :
    charAt l i = l[i]?.toList := by
  cases h : l[i]? <;> simp [charAt, h]

theorem take_append_charAt (l : Str) (i : Nat) :
    l.take i ++ charAt l i = l.take (i + 1) := by
  rw [charAt_eq_toList, List.take_succ]

theorem inv_init : Inv init := by
  have hinit : init = ⟨[], 0, [], [], [], [], false, true, Pending.interval 0 0⟩ := by
    decide
  rw [Inv, PendingInv, hinit]
  refine ⟨by decide, by decide, by decide, by decide, by decide, by decide,
    ?_, ?_, ?_⟩
  · intro hc; exact absurd hc (by decide)
  · intro p i hc
    injection hc with hp hi
    subst hp; subst hi
    exact ⟨by decide, by decide, by decide, by decide, by decide, by decide⟩
  · intro p hc; exact Pending.noConfusion hc

theorem cleanup_of_none (s : TermState) (h : s.pending = Pending.none) :
    cleanup s = s := by
  unfold cleanup
  rw [h]

theorem runEffect_not_sys (s : TermState)
    (h : ¬(s.step % 2 = 0 ∧ s.step < 6)) : runEffect s = s := by
  unfold runEffect
  rw [if_neg h]

theorem runEffect_sys (s : TermState) (h : s.step % 2 = 0 ∧ s.step < 6) :
    runEffect s = { s with isTyping := true
                         , currentText := []
                         , pending := Pending.interval (s.step / 2) 0 } := by
  unfold runEffect
  rw [if_pos h]

theorem inv_tick (s : TermState) (h : Inv s) : Inv (applyEvent s Event.tick) := by
  obtain ⟨h1, h2, h3, h4, h5, h6, hn, hi, hs⟩ := h
  cases hp : s.pending with
  | none =>
    simp only [applyEvent, hp]
    exact ⟨h1, h2, h3, h4, h5, h6, hn, hi, hs⟩
  | interval p i =>
    obtain ⟨he, hlt, hdiv, hile, hct, hty⟩ := hi p i hp
    by_cases hilen : i < (prompt p).length
    · simp only [applyEvent, hp, if_pos hilen]
      refine ⟨h1, h2, h3, h4, h5, h6, ?_, ?_, ?_⟩
      · intro hc; exact Pending.noConfusion hc
      · intro p' i' hc
        injection hc with hp' hi'
        subst hp'; subst hi'
        refine ⟨he, hlt, hdiv, by omega, ?_, hty⟩
        show s.currentText ++ charAt (prompt p) i = (prompt p).take (i + 1)
        rw [hct, take_append_charAt]
      · intro p' hc; exact Pending.noConfusion hc
    · simp only [applyEvent, hp, if_neg hilen]
      refine ⟨h1, h2, h3, h4, h5, h6, ?_, ?_, ?_⟩
      · intro hc; exact Pending.noConfusion hc
      · intro p' i' hc; exact Pending.noConfusion hc
      · intro p' hc
        injection hc with hp'
        subst hp'
        refine ⟨he, hlt, hdiv, ?_, rfl⟩
        show s.currentText = prompt p
        have hieq : i = (prompt p).length := by omega
        rw [hct, hieq, List.take_length]
  | settle p =>
    simp only [applyEvent, hp]
    exact ⟨h1, h2, h3, h4, h5, h6, hn, hi, hs⟩

theorem inv_runEffect_cleanup_none (t : TermState)
    (hpn : t.pending = Pending.none) (hty : t.isTyping = false)
    (h1 : t.step ≤ 6) (h2 : t.history.length = t.step)
    (h3 : t.repoLink ≠ [] ↔ 2 ≤ t.step)
    (h4 : t.teamName ≠ [] ↔ 4 ≤ t.step)
    (h5 : t.leaderName ≠ [] ↔ 6 ≤ t.step)
    (h6 : t.isLoading = true → t.step = 6) :
    Inv (runEffect (cleanup t)) := by
  rw [cleanup_of_none t hpn]
  by_cases hsys : t.step % 2 = 0 ∧ t.step < 6
  · rw [runEffect_sys t hsys]
    refine ⟨h1, h2, h3, h4, h5, h6, ?_, ?_, ?_⟩
    · intro hc; exact Pending.noConfusion hc
    · intro p i hc
      injection hc with hp hi
      subst hp; subst hi
      exact ⟨hsys.1, hsys.2, rfl, by omega, rfl, rfl⟩
    · intro p hc; exact Pending.noConfusion hc
  · rw [runEffect_not_sys t hsys]
    refine ⟨h1, h2, h3, h4, h5, h6, ?_, ?_, ?_⟩
    · intro _; exact ⟨by omega, hty⟩
    · intro p i hc; rw [hpn] at hc; exact Pending.noConfusion hc
    · intro p hc; rw [hpn] at hc; exact Pending.noConfusion hc

theorem inv_settleFire (s : TermState) (h : Inv s) :
    Inv (applyEvent s Event.settleFire) := by
  obtain ⟨h1, h2, h3, h4, h5, h6, hn, hi, hs⟩ := h
  cases hp : s.pending with
  | none =>
    simp only [applyEvent, hp]
    exact ⟨h1, h2, h3, h4, h5, h6, hn, hi, hs⟩
  | interval p i =>
    simp only [applyEvent, hp]
    exact ⟨h1, h2, h3, h4, h5, h6, hn, hi, hs⟩
  | settle p =>
    obtain ⟨he, hlt, hdiv, hct, hty⟩ := hs p hp
    simp only [applyEvent, hp]
    refine inv_runEffect_cleanup_none _ rfl hty ?_ ?_ ?_ ?_ ?_ ?_
    · show s.step + 1 ≤ 6; omega
    · show (s.history ++ [(⟨LineType.system, prompt p⟩ : TerminalLine)]).length = s.step + 1
      rw [List.length_append, h2]
      rfl
    · show s.repoLink ≠ [] ↔ 2 ≤ s.step + 1
      rw [h3]; omega
    · show s.teamName ≠ [] ↔ 4 ≤ s.step + 1
      rw [h4]; omega
    · show s.leaderName ≠ [] ↔ 6 ≤ s.step + 1
      rw [h5]; omega
    · intro hl; exact absurd (h6 hl) (by omega)

theorem inv_input (s : TermState) (t : Str) (h : Inv s) :
    Inv (applyEvent s (Event.input t)) := by
  obtain ⟨h1, h2, h3, h4, h5, h6, hn, hi, hs⟩ := h
  by_cases hc : s.step % 2 ≠ 0 ∧ s.isLoading = false
  · simp only [applyEvent, if_pos hc]
    refine ⟨h1, h2, h3, h4, h5, h6, ?_, ?_, ?_⟩
    · intro hpn; exact hn hpn
    · intro p i hpe; exact absurd (hi p i hpe).1 hc.1
    · intro p hpe; exact absurd (hs p hpe).1 hc.1
  · simp only [applyEvent, if_neg hc]
    exact ⟨h1, h2, h3, h4, h5, h6, hn, hi, hs⟩

theorem inv_confirm (s : TermState) (h : Inv s) :
    Inv (applyEvent s Event.confirm) := by
  obtain ⟨h1, h2, h3, h4, h5, h6, hn, hi, hs⟩ := h
  by_cases hc : s.step % 2 ≠ 0 ∧ s.isLoading = false ∧ s.isTyping = false ∧
      0 < (trimText s.currentText).length
  · simp only [applyEvent, if_pos hc]
    obtain ⟨hodd, hld, htyf, htr⟩ := hc
    have hval : trimText s.currentText ≠ [] := List.length_pos.mp htr
    have hstep135 : s.step = 1 ∨ s.step = 3 ∨ s.step = 5 := by omega
    refine inv_runEffect_cleanup_none _ ?_ htyf ?_ ?_ ?_ ?_ ?_ ?_
    · show s.pending = Pending.none
      cases hp : s.pending with
      | none => rfl
      | interval p i => exact absurd (hi p i hp).1 hodd
      | settle p => exact absurd (hs p hp).1 hodd
    · show s.step + 1 ≤ 6; omega
    · show (s.history ++ [(⟨LineType.user, trimText s.currentText⟩ : TerminalLine)]).length = s.step + 1
      rw [List.length_append, h2]; rfl
    · show (if s.step = 1 then trimText s.currentText else s.repoLink) ≠ [] ↔ 2 ≤ s.step + 1
      rcases hstep135 with h' | h' | h' <;> rw [h'] at h3 ⊢ <;> simp [hval, h3]
    · show (if s.step = 3 then trimText s.currentText else s.teamName) ≠ [] ↔ 4 ≤ s.step + 1
      rcases hstep135 with h' | h' | h' <;> rw [h'] at h4 ⊢ <;> simp [hval, h4]
    · show (if s.step = 5 then trimText s.currentText else s.leaderName) ≠ [] ↔ 6 ≤ s.step + 1
      rcases hstep135 with h' | h' | h' <;> rw [h'] at h5 ⊢ <;> simp [hval, h5]
    · intro hl
      rw [hld] at hl
      exact Bool.noConfusion hl
  · simp only [applyEvent, if_neg hc]
    exact ⟨h1, h2, h3, h4, h5, h6, hn, hi, hs⟩

theorem inv_runAgent (s : TermState) (h : Inv s) :
    Inv (applyEvent s Event.runAgent) := by
  obtain ⟨h1, h2, h3, h4, h5, h6, hn, hi, hs⟩ := h
  by_cases hc : s.step = 6 ∧ s.repoLink ≠ [] ∧ s.teamName ≠ [] ∧ s.leaderName ≠ []
  · simp only [applyEvent, if_pos hc]
    refine ⟨h1, h2, h3, h4, h5, fun _ => hc.1, ?_, ?_, ?_⟩
    · intro hpn; exact hn hpn
    · intro p i hpe; exact hi p i hpe
    · intro p hpe; exact hs p hpe
  · simp only [applyEvent, if_neg hc]
    exact ⟨h1, h2, h3, h4, h5, h6, hn, hi, hs⟩

theorem inv_applyEvent (s : TermState) (e : Event) (h : Inv s) :
    Inv (applyEvent s e) := by
  cases e with
  | tick => exact inv_tick s h
  | settleFire => exact inv_settleFire s h
  | input t => exact inv_input s t h
  | confirm => exact inv_confirm s h
  | runAgent => exact inv_runAgent s h
  | loadingDone => exact h

theorem reachable_inv (s : TermState) (h : Reachable s) : Inv s := by
  induction h with
  | init => exact inv_init
  | step s e _ ih => exact inv_applyEvent s e ih

theorem step_le_six (s : TermState) (h : Reachable s) : s.step ≤ 6 :=
  (reachable_inv s h).1

theorem cleanup_step (s : TermState) : (cleanup s).step = s.step := by
  rcases s with ⟨h, st, ct, rl, tn, ln, il, it, pd⟩
  cases pd <;> rfl

theorem cleanup_history (s : TermState) : (cleanup s).history = s.history := by
  rcases s with ⟨h, st, ct, rl, tn, ln, il, it, pd⟩
  cases pd <;> rfl

theorem cleanup_repoLink (s : TermState) : (cleanup s).repoLink = s.repoLink := by
  rcases s with ⟨h, st, ct, rl, tn, ln, il, it, pd⟩
  cases pd <;> rfl

theorem cleanup_teamName (s : TermState) : (cleanup s).teamName = s.teamName := by
  rcases s with ⟨h, st, ct, rl, tn, ln, il, it, pd⟩
  cases pd <;> rfl

theorem cleanup_leaderName (s : TermState) : (cleanup s).leaderName = s.leaderName := by
  rcases s with ⟨h, st, ct, rl, tn, ln, il, it, pd⟩
  cases pd <;> rfl

theorem cleanup_isLoading (s : TermState) : (cleanup s).isLoading = s.isLoading := by
  rcases s with ⟨h, st, ct, rl, tn, ln, il, it, pd⟩
  cases pd <;> rfl

theorem runEffect_step (s : TermState) : (runEffect s).step = s.step := by
  unfold runEffect
  split <;> rfl

theorem runEffect_history (s : TermState) : (runEffect s).history = s.history := by
  unfold runEffect
  split <;> rfl

theorem runEffect_repoLink (s : TermState) : (runEffect s).repoLink = s.repoLink := by
  unfold runEffect
  split <;> rfl

theorem runEffect_teamName (s : TermState) : (runEffect s).teamName = s.teamName := by
  unfold runEffect
  split <;> rfl

theorem runEffect_leaderName (s : TermState) : (runEffect s).leaderName = s.leaderName := by
  unfold runEffect
  split <;> rfl

theorem runEffect_isLoading (s : TermState) : (runEffect s).isLoading = s.isLoading := by
  unfold runEffect
  split <;> rfl

/-- Every transition either keeps `step` or increments it by exactly one. -/
theorem step_succ_or_same (s : TermState) (e : Event) :
    (applyEvent s e).step = s.step ∨ (applyEvent s e).step = s.step + 1 := by
  cases e with
  | tick =>
    cases hp : s.pending with
    | none => simp only [applyEvent, hp]; left; trivial
    | interval p i =>
      by_cases hi : i < (prompt p).length
      · simp only [applyEvent, hp, if_pos hi]; left; trivial
      · simp only [applyEvent, hp, if_neg hi]; left; trivial
    | settle p => simp only [applyEvent, hp]; left; trivial
  | settleFire =>
    cases hp : s.pending with
    | none => simp only [applyEvent, hp]; left; trivial
    | interval p i => simp only [applyEvent, hp]; left; trivial
    | settle p =>
      simp only [applyEvent, hp]
      rw [runEffect_step, cleanup_step]
      right; trivial
  | input t =>
    by_cases hc : s.step % 2 ≠ 0 ∧ s.isLoading = false
    · simp only [applyEvent, if_pos hc]; left; trivial
    · simp only [applyEvent, if_neg hc]; left; trivial
  | confirm =>
    by_cases hc : s.step % 2 ≠ 0 ∧ s.isLoading = false ∧ s.isTyping = false ∧
        0 < (trimText s.currentText).length
    · simp only [applyEvent, if_pos hc]
      rw [runEffect_step, cleanup_step]
      right; trivial
    · simp only [applyEvent, if_neg hc]; left; trivial
  | runAgent =>
    by_cases hc : s.step = 6 ∧ s.repoLink ≠ [] ∧ s.teamName ≠ [] ∧ s.leaderName ≠ []
    · simp only [applyEvent, if_pos hc]; left; trivial
    · simp only [applyEvent, if_neg hc]; left; trivial
  | loadingDone => left; trivial

/-- Every transition leaves the existing history untouched and at most
appends to it. -/
theorem history_extends (s : TermState) (e : Event) :
    ∃ t, (applyEvent s e).history = s.history ++ t := by
  cases e with
  | tick =>
    cases hp : s.pending with
    | none => exact ⟨[], by simp [applyEvent, hp]⟩
    | interval p i =>
      by_cases hi : i < (prompt p).length
      · exact ⟨[], by simp [applyEvent, hp, if_pos hi]⟩
      · exact ⟨[], by simp [applyEvent, hp, if_neg hi]⟩
    | settle p => exact ⟨[], by simp [applyEvent, hp]⟩
  | settleFire =>
    cases hp : s.pending with
    | none => exact ⟨[], by simp [applyEvent, hp]⟩
    | interval p i => exact ⟨[], by simp [applyEvent, hp]⟩
    | settle p =>
      refine ⟨[⟨LineType.system, prompt p⟩], ?_⟩
      simp only [applyEvent, hp]
      rw [runEffect_history, cleanup_history]
  | input t =>
    by_cases hc : s.step % 2 ≠ 0 ∧ s.isLoading = false
    · exact ⟨[], by simp only [applyEvent, if_pos hc]; simp⟩
    · exact ⟨[], by simp only [applyEvent, if_neg hc]; simp⟩
  | confirm =>
    by_cases hc : s.step % 2 ≠ 0 ∧ s.isLoading = false ∧ s.isTyping = false ∧
        0 < (trimText s.currentText).length
    · refine ⟨[⟨LineType.user, trimText s.currentText⟩], ?_⟩
      simp only [applyEvent, if_pos hc]
      rw [runEffect_history, cleanup_history]
    · exact ⟨[], by simp only [applyEvent, if_neg hc]; simp⟩
  | runAgent =>
    by_cases hc : s.step = 6 ∧ s.repoLink ≠ [] ∧ s.teamName ≠ [] ∧ s.leaderName ≠ []
    · exact ⟨[], by simp only [applyEvent, if_pos hc]; simp⟩
    · exact ⟨[], by simp only [applyEvent, if_neg hc]; simp⟩
  | loadingDone => exact ⟨[], by simp [applyEvent]⟩

/-- No event other than the user commit of step 1 writes `repoLink`. -/
theorem repoLink_stable (s : TermState) (e : Event) (hne : s.step ≠ 1) :
    (applyEvent s e).repoLink = s.repoLink := by
  cases e with
  | tick =>
    cases hp : s.pending with
    | none => simp [applyEvent, hp]
    | interval p i =>
      by_cases hi : i < (prompt p).length
      · simp [applyEvent, hp, if_pos hi]
      · simp [applyEvent, hp, if_neg hi]
    | settle p => simp [applyEvent, hp]
  | settleFire =>
    cases hp : s.pending with
    | none => simp [applyEvent, hp]
    | interval p i => simp [applyEvent, hp]
    | settle p =>
      simp only [applyEvent, hp]
      rw [runEffect_repoLink, cleanup_repoLink]
  | input t =>
    by_cases hc : s.step % 2 ≠ 0 ∧ s.isLoading = false
    · simp only [applyEvent, if_pos hc]
    · simp only [applyEvent, if_neg hc]
  | confirm =>
    by_cases hc : s.step % 2 ≠ 0 ∧ s.isLoading = false ∧ s.isTyping = false ∧
        0 < (trimText s.currentText).length
    · simp only [applyEvent, if_pos hc]
      rw [runEffect_repoLink, cleanup_repoLink]
      show (if s.step = 1 then trimText s.currentText else s.repoLink) = s.repoLink
      rw [if_neg hne]
    · simp only [applyEvent, if_neg hc]
  | runAgent =>
    by_cases hc : s.step = 6 ∧ s.repoLink ≠ [] ∧ s.teamName ≠ [] ∧ s.leaderName ≠ []
    · simp only [applyEvent, if_pos hc]
    · simp only [applyEvent, if_neg hc]
  | loadingDone => simp [applyEvent]

/-- No event other than the user commit of step 3 writes `teamName`. -/
theorem teamName_stable (s : TermState) (e : Event) (hne : s.step ≠ 3) :
    (applyEvent s e).teamName = s.teamName := by
  cases e with
  | tick =>
    cases hp : s.pending with
    | none => simp [applyEvent, hp]
    | interval p i =>
      by_cases hi : i < (prompt p).length
      · simp [applyEvent, hp, if_pos hi]
      · simp [applyEvent, hp, if_neg hi]
    | settle p => simp [applyEvent, hp]
  | settleFire =>
    cases hp : s.pending with
    | none => simp [applyEvent, hp]
    | interval p i => simp [applyEvent, hp]
    | settle p =>
      simp only [applyEvent, hp]
      rw [runEffect_teamName, cleanup_teamName]
  | input t =>
    by_cases hc : s.step % 2 ≠ 0 ∧ s.isLoading = false
    · simp only [applyEvent, if_pos hc]
    · simp only [applyEvent, if_neg hc]
  | confirm =>
    by_cases hc : s.step % 2 ≠ 0 ∧ s.isLoading = false ∧ s.isTyping = false ∧
        0 < (trimText s.currentText).length
    · simp only [applyEvent, if_pos hc]
      rw [runEffect_teamName, cleanup_teamName]
      show (if s.step = 3 then trimText s.currentText else s.teamName) = s.teamName
      rw [if_neg hne]
    · simp only [applyEvent, if_neg hc]
  | runAgent =>
    by_cases hc : s.step = 6 ∧ s.repoLink ≠ [] ∧ s.teamName ≠ [] ∧ s.leaderName ≠ []
    · simp only [applyEvent, if_pos hc]
    · simp only [applyEvent, if_neg hc]
  | loadingDone => simp [applyEvent]

/-- No event other than the user commit of step 5 writes `leaderName`. -/
theorem leaderName_stable (s : TermState) (e : Event) (hne : s.step ≠ 5) :
    (applyEvent s e).leaderName = s.leaderName := by
  cases e with
  | tick =>
    cases hp : s.pending with
    | none => simp [applyEvent, hp]
    | interval p i =>
      by_cases hi : i < (prompt p).length
      · simp [applyEvent, hp, if_pos hi]
      · simp [applyEvent, hp, if_neg hi]
    | settle p => simp [applyEvent, hp]
  | settleFire =>
    cases hp : s.pending with
    | none => simp [applyEvent, hp]
    | interval p i => simp [applyEvent, hp]
    | settle p =>
      simp only [applyEvent, hp]
      rw [runEffect_leaderName, cleanup_leaderName]
  | input t =>
    by_cases hc : s.step % 2 ≠ 0 ∧ s.isLoading = false
    · simp only [applyEvent, if_pos hc]
    · simp only [applyEvent, if_neg hc]
  | confirm =>
    by_cases hc : s.step % 2 ≠ 0 ∧ s.isLoading = false ∧ s.isTyping = false ∧
        0 < (trimText s.currentText).length
    · simp only [applyEvent, if_pos hc]
      rw [runEffect_leaderName, cleanup_leaderName]
      show (if s.step = 5 then trimText s.currentText else s.leaderName) = s.leaderName
      rw [if_neg hne]
    · simp only [applyEvent, if_neg hc]
  | runAgent =>
    by_cases hc : s.step = 6 ∧ s.repoLink ≠ [] ∧ s.teamName ≠ [] ∧ s.leaderName ≠ []
    · simp only [applyEvent, if_pos hc]
    · simp only [applyEvent, if_neg hc]
  | loadingDone => simp [applyEvent]

/-- Characterization of the derived gate as a proposition. -/
theorem enabled_iff (s : TermState) :
    isButtonEnabled s = true ↔
      (s.step = 6 ∧ s.isLoading = false ∧
        s.repoLink ≠ [] ∧ s.teamName ≠ [] ∧ s.leaderName ≠ []) := by
  simp [isButtonEnabled, and_assoc, Bool.not_eq_true']

/-- The `isLoading` flag is never reset: no handler calls `setIsLoading(false)`. -/
theorem isLoading_monotone (s : TermState) (e : Event) (h : s.isLoading = true) :
    (applyEvent s e).isLoading = true := by
  cases e with
  | tick =>
    cases hp : s.pending with
    | none => simpa [applyEvent, hp] using h
    | interval p i =>
      by_cases hi : i < (prompt p).length
      · simpa [applyEvent, hp, if_pos hi] using h
      · simpa [applyEvent, hp, if_neg hi] using h
    | settle p => simpa [applyEvent, hp] using h
  | settleFire =>
    cases hp : s.pending with
    | none => simpa [applyEvent, hp] using h
    | interval p i => simpa [applyEvent, hp] using h
    | settle p =>
      simp only [applyEvent, hp]
      rw [runEffect_isLoading, cleanup_isLoading]
      exact h
  | input t =>
    by_cases hc : s.step % 2 ≠ 0 ∧ s.isLoading = false
    · simpa only [applyEvent, if_pos hc] using h
    · simpa only [applyEvent, if_neg hc] using h
  | confirm =>
    by_cases hc : s.step % 2 ≠ 0 ∧ s.isLoading = false ∧ s.isTyping = false ∧
        0 < (trimText s.currentText).length
    · simp only [applyEvent, if_pos hc]
      rw [runEffect_isLoading, cleanup_isLoading]
      exact h
    · simpa only [applyEvent, if_neg hc] using h
  | runAgent =>
    by_cases hc : s.step = 6 ∧ s.repoLink ≠ [] ∧ s.teamName ≠ [] ∧ s.leaderName ≠ []
    · simp only [applyEvent, if_pos hc]
    · simpa only [applyEvent, if_neg hc] using h
  | loadingDone => simpa [applyEvent] using h

theorem set_isLoading_true_self (s : TermState) (h : s.isLoading = true) :
    ({ s with isLoading := true } : TermState) = s := by
  rcases s with ⟨hist, st, ct, rl, tn, ln, il, it, pd⟩
  have hil : il = true := h
  rw [hil]

set_option maxRecDepth 40000

/-- The end-to-end session of the spec's scenario: each prompt is fully
auto-typed (prompt length + 1 interval ticks), its settle timeout fires, then
the user types an answer and confirms. -/
def fullTrace : List Event :=
  List.replicate 29 Event.tick ++
    [Event.settleFire, Event.input "1".toList, Event.confirm] ++
  List.replicate 16 Event.tick ++
    [Event.settleFire, Event.input "2".toList, Event.confirm] ++
  List.replicate 23 Event.tick ++
    [Event.settleFire, Event.input "3".toList, Event.confirm]

/-- The component during the 300 ms settle delay of prompt 0: all 28
characters have been emitted and the 29th interval callback has cleared the
interval and scheduled the settle timeout. -/
def settleDelayState : TermState := run (List.replicate 29 Event.tick)

/-- The component at step 1 (awaiting the first answer). -/
def step1State : TermState := run (List.replicate 29 Event.tick ++ [Event.settleFire])

/-- Step 1 with a whitespace-only current text. -/
def wsConfirmState : TermState :=
  run (List.replicate 29 Event.tick ++ [Event.settleFire, Event.input "   ".toList])

/-- C1: History is append-only — every transition extends History by a
(possibly empty) suffix, never removing, truncating or reordering committed
lines — and in every reachable state the length of History equals `step`
(each commit appends its Line in the same transition that increments `step`). -/
theorem history_append_only (s : TermState) (e : Event) (h : Reachable s) :
    s.history.length = s.step ∧
    ∃ t, (applyEvent s e).history = s.history ++ t :=
  ⟨(reachable_inv s h).2.1, history_extends s e⟩

/-- Witness for C1: the invariant instantiated at the mounted initial state. -/
theorem history_append_only_witness :
    init.history.length = init.step ∧
    ∃ t, (applyEvent init Event.tick).history = init.history ++ t :=
  history_append_only init Event.tick Reachable.init

/-- C2: `step` starts at 0, stays at most 6 in every reachable state, and
every transition changes it by exactly 0 or +1 — never decreasing, never
skipping — while the end-to-end session trace attains the terminal value 6,
so a full session visits exactly the seven values 0..6 in strictly
increasing order with no repeats. -/
theorem step_counter_monotone (s : TermState) (e : Event) (h : Reachable s) :
    init.step = 0 ∧ s.step ≤ 6 ∧
    ((applyEvent s e).step = s.step ∨ (applyEvent s e).step = s.step + 1) ∧
    (run fullTrace).step = 6 :=
  ⟨by decide, (reachable_inv s h).1, step_succ_or_same s e, by decide⟩

/-- Witness for C2 at the mounted initial state. -/
theorem step_counter_monotone_witness :
    init.step = 0 ∧ init.step ≤ 6 ∧
    ((applyEvent init Event.tick).step = init.step ∨
      (applyEvent init Event.tick).step = init.step + 1) ∧
    (run fullTrace).step = 6 :=
  step_counter_monotone init Event.tick Reachable.init

/-- C3 (refutation of full cancellation; code bug): after prompt 0 has been
fully auto-typed (29 interval ticks from the mounted state) the component
sits in the 300 ms settle delay of step 0 with the settle timeout pending.
The effect cleanup that runs on unmount or step change is `clearInterval`
only (Terminal.tsx line 111): it does NOT cancel the pending settle timeout,
and firing that leftover timeout afterwards still commits the retired step's
SYSTEM line to History and advances `step`. -/
theorem settle_timeout_survives_cleanup :
    Reachable settleDelayState ∧
    settleDelayState.step = 0 ∧
    settleDelayState.isTyping = false ∧
    settleDelayState.pending = Pending.settle 0 ∧
    (cleanup settleDelayState).pending = Pending.settle 0 ∧
    (applyEvent (cleanup settleDelayState) Event.settleFire).history =
      settleDelayState.history ++ [⟨LineType.system, prompt 0⟩] ∧
    (applyEvent (cleanup settleDelayState) Event.settleFire).step =
      settleDelayState.step + 1 :=
  ⟨reachable_run _, by decide, by decide, by decide, by decide, by decide,
    by decide⟩

/-- C4: an invocation attempt is rejected without any state change unless the
gate is enabled: with `step < 6`, or any empty Answers slot, or the loading
(RUNNING) flag already set, `handleRunAgent` leaves the state unchanged — in
particular a second invocation while RUNNING changes nothing. -/
theorem runAgent_rejected (s : TermState)
    (h : s.step < 6 ∨ s.repoLink = [] ∨ s.teamName = [] ∨ s.leaderName = [] ∨
      s.isLoading = true) :
    applyEvent s Event.runAgent = s := by
  simp only [applyEvent]
  split_ifs with hg
  · obtain ⟨hg1, hg2, hg3, hg4⟩ := hg
    rcases h with h | h | h | h | h
    · exact absurd hg1 (by omega)
    · exact absurd h hg2
    · exact absurd h hg3
    · exact absurd h hg4
    · exact set_isLoading_true_self s h
  · rfl

/-- Witness for C4: invocation at the mounted initial state (step 0) is a
no-op. -/
theorem runAgent_rejected_witness : applyEvent init Event.runAgent = init :=
  runAgent_rejected init (Or.inl (by decide))

/-- C5: the action gate is enabled iff `step = 6`, the component is not in
its RUNNING (loading) state, and all three Answers slots are non-empty — the
code's `isButtonEnabled` coincides with the spec's ENABLED rule in every
state. -/
theorem gate_refines_spec (s : TermState) :
    isButtonEnabled s = true ↔ gateSpecEnabled s := by
  rw [gateSpecEnabled]
  exact enabled_iff s

/-- C6: a confirm whose current text trims to empty, or which arrives while
auto-typing, or during a system (even) step, changes nothing at all —
History, `step`, CurrentText and the Answers slots are all untouched (and
hence repeating such attempts any number of times still changes nothing). -/
theorem empty_confirm_noop (s : TermState)
    (h : trimText s.currentText = [] ∨ s.isTyping = true ∨ s.step % 2 = 0) :
    applyEvent s Event.confirm = s := by
  have hng : ¬(s.step % 2 ≠ 0 ∧ s.isLoading = false ∧ s.isTyping = false ∧
      0 < (trimText s.currentText).length) := by
    rintro ⟨hodd, hld, hty, htr⟩
    rcases h with h | h | h
    · rw [h] at htr
      exact absurd htr (by simp)
    · rw [h] at hty
      exact Bool.noConfusion hty
    · exact absurd h hodd
  simp only [applyEvent, if_neg hng]

/-- Witness for C6: submitting three spaces while awaiting an answer leaves
the state unchanged. -/
theorem empty_confirm_noop_witness :
    applyEvent wsConfirmState Event.confirm = wsConfirmState :=
  empty_confirm_noop wsConfirmState (Or.inl (by decide))

/-- C7: in any reachable state whose auto-type interval for prompt `p` has
emitted `i` characters, CurrentText is exactly the first `i` characters of
`PROMPTS[p]` (with `p = step / 2`, `step` even and below 6); every further
tick appends exactly character `i` and leaves History untouched; once all
characters have been emitted CurrentText equals the full prompt and the
interval hands over to the settle timeout, whose firing appends exactly that
prompt text as the SYSTEM line. -/
theorem autotype_emits_prompt (s : TermState) (p i : Nat) (h : Reachable s) :
    (s.pending = Pending.interval p i →
      s.step % 2 = 0 ∧ s.step < 6 ∧ p = s.step / 2 ∧ i ≤ (prompt p).length ∧
      s.currentText = (prompt p).take i ∧
      (i < (prompt p).length →
        (applyEvent s Event.tick).currentText = (prompt p).take (i + 1) ∧
        (applyEvent s Event.tick).pending = Pending.interval p (i + 1) ∧
        (applyEvent s Event.tick).history = s.history) ∧
      ((prompt p).length ≤ i →
        s.currentText = prompt p ∧
        (applyEvent s Event.tick).pending = Pending.settle p)) ∧
    (s.pending = Pending.settle p →
      s.currentText = prompt p ∧
      (applyEvent s Event.settleFire).history =
        s.history ++ [⟨LineType.system, prompt p⟩] ∧
      (applyEvent s Event.settleFire).step = s.step + 1) := by
  obtain ⟨h1, h2, h3, h4, h5, h6, hn, hi, hs⟩ := reachable_inv s h
  constructor
  · intro hp
    obtain ⟨he, hlt, hdiv, hile, hct, hty⟩ := hi p i hp
    refine ⟨he, hlt, hdiv, hile, hct, ?_, ?_⟩
    · intro hilen
      have happ : applyEvent s Event.tick =
          { s with currentText := s.currentText ++ charAt (prompt p) i
                 , pending := Pending.interval p (i + 1) } := by
        simp only [applyEvent, hp, if_pos hilen]
      rw [happ]
      refine ⟨?_, rfl, rfl⟩
      show s.currentText ++ charAt (prompt p) i = (prompt p).take (i + 1)
      rw [hct, take_append_charAt]
    · intro hge
      have hieq : i = (prompt p).length := by omega
      have happ : applyEvent s Event.tick =
          { s with isTyping := false, pending := Pending.settle p } := by
        simp only [applyEvent, hp, if_neg (by omega : ¬ i < (prompt p).length)]
      constructor
      · rw [hct, hieq, List.take_length]
      · rw [happ]
  · intro hp
    obtain ⟨he, hlt, hdiv, hct, hty⟩ := hs p hp
    have happ : applyEvent s Event.settleFire =
        runEffect (cleanup
          { s with history := s.history ++ [⟨LineType.system, prompt p⟩]
                 , currentText := []
                 , step := s.step + 1
                 , pending := Pending.none }) := by
      simp only [applyEvent, hp]
    refine ⟨hct, ?_, ?_⟩
    · rw [happ, runEffect_history, cleanup_history]
    · rw [happ, runEffect_step, cleanup_step]

/-- Witness for C7: the mounted initial state carries the interval for
prompt 0 at index 0; CurrentText is the empty prefix and the first tick
emits exactly the first character. -/
theorem autotype_emits_prompt_witness :
    init.currentText = (prompt 0).take 0 ∧
    (applyEvent init Event.tick).currentText = (prompt 0).take 1 := by
  have h := (autotype_emits_prompt init 0 0 Reachable.init).1 rfl
  exact ⟨h.2.2.2.2.1, (h.2.2.2.2.2.1 (by decide)).1⟩

/-- C8: each Answers slot is empty before its user commit and non-empty from
the step right after it, and every event leaves a slot unchanged once the
machine has moved past that slot's input step — each slot is written exactly
once, at the commit of its odd step, and never modified afterwards. -/
theorem answers_write_once (s : TermState) (e : Event) (h : Reachable s) :
    (s.repoLink ≠ [] ↔ 2 ≤ s.step) ∧
    (s.teamName ≠ [] ↔ 4 ≤ s.step) ∧
    (s.leaderName ≠ [] ↔ 6 ≤ s.step) ∧
    (2 ≤ s.step → (applyEvent s e).repoLink = s.repoLink) ∧
    (4 ≤ s.step → (applyEvent s e).teamName = s.teamName) ∧
    (6 ≤ s.step → (applyEvent s e).leaderName = s.leaderName) := by
  obtain ⟨h1, h2, h3, h4, h5, h6, _⟩ := reachable_inv s h
  exact ⟨h3, h4, h5,
    fun hge => repoLink_stable s e (by omega),
    fun hge => teamName_stable s e (by omega),
    fun hge => leaderName_stable s e (by omega)⟩

/-- Witness for C8: after the full session all three slots are populated and
a further event leaves `repoLink` unchanged. -/
theorem answers_write_once_witness :
    ((run fullTrace).leaderName ≠ [] ↔ 6 ≤ (run fullTrace).step) ∧
    (applyEvent (run fullTrace) Event.tick).repoLink = (run fullTrace).repoLink :=
  ⟨(answers_write_once (run fullTrace) Event.tick (reachable_run _)).2.2.1,
    (answers_write_once (run fullTrace) Event.tick (reachable_run _)).2.2.2.1
      (by decide)⟩

/-- C9: once loading (RUNNING) is set no event ever resets it; the gate is
disabled at every step below 6 and whenever loading; and from any enabled
state, invoking sets loading and immediately re-disables the gate — so
availability, true only at the terminal step with all Answers populated,
becomes false at invocation and stays false for the rest of the session. -/
theorem invoke_lifecycle (s : TermState) (e : Event) :
    (s.isLoading = true → (applyEvent s e).isLoading = true) ∧
    (s.step < 6 → isButtonEnabled s = false) ∧
    (s.isLoading = true → isButtonEnabled s = false) ∧
    (isButtonEnabled s = true →
      (applyEvent s Event.runAgent).isLoading = true ∧
      isButtonEnabled (applyEvent s Event.runAgent) = false) := by
  refine ⟨isLoading_monotone s e, ?_, ?_, ?_⟩
  · intro hlt
    have hne : ¬ s.step = 6 := by omega
    simp [isButtonEnabled, hne]
  · intro hl
    simp [isButtonEnabled, hl]
  · intro hen
    obtain ⟨h6', hld, hrl, htn, hln⟩ := (enabled_iff s).mp hen
    have hgg : s.step = 6 ∧ s.repoLink ≠ [] ∧ s.teamName ≠ [] ∧
        s.leaderName ≠ [] := ⟨h6', hrl, htn, hln⟩
    have happ : applyEvent s Event.runAgent = { s with isLoading := true } := by
      simp only [applyEvent, if_pos hgg]
    rw [happ]
    exact ⟨rfl, by simp [isButtonEnabled]⟩

/-- Witness for C9: the full-session state is enabled; invoking sets loading
and disables the gate. -/
theorem invoke_lifecycle_witness :
    isButtonEnabled (run fullTrace) = true ∧
    (applyEvent (run fullTrace) Event.runAgent).isLoading = true ∧
    isButtonEnabled (applyEvent (run fullTrace) Event.runAgent) = false :=
  ⟨by decide,
    ((invoke_lifecycle (run fullTrace) Event.runAgent).2.2.2 (by decide)).1,
    ((invoke_lifecycle (run fullTrace) Event.runAgent).2.2.2 (by decide)).2⟩

/-- C10: in every reachable state on an odd (user-input) step the auto-typing
flag is down and no auto-type task (interval or settle timeout) is
outstanding — so the text-change handler, which checks only step parity, can
never run while an auto-type animation is writing to CurrentText. -/
theorem odd_step_no_typing (s : TermState) (h : Reachable s)
    (hodd : s.step % 2 = 1) :
    s.isTyping = false ∧ s.pending = Pending.none := by
  obtain ⟨h1, h2, h3, h4, h5, h6, hn, hi, hs⟩ := reachable_inv s h
  cases hp : s.pending with
  | none => exact ⟨(hn hp).2, rfl⟩
  | interval p i => exact absurd (hi p i hp).1 (by omega)
  | settle p => exact absurd (hs p hp).1 (by omega)

/-- Witness for C10: the state awaiting the first answer (step 1). -/
theorem odd_step_no_typing_witness :
    step1State.isTyping = false ∧ step1State.pending = Pending.none :=
  odd_step_no_typing step1State (reachable_run _) (by decide)

end CICDTerminal
